import Mathlib

/-!
Verification of the threshold Paillier (Damgard-Jurik) library against its
specification.  The Go sources are embedded shallowly: big.Int values become
Nat or Int with explicit reductions modulo N^(s+1), fallible functions return
a result type mirroring the (value, error) pairs of the source, and the
SHA-256 Fiat-Shamir challenge is abstracted as a function parameter H that
both the prover and the verifier apply to the same argument list, exactly as
the source feeds the same byte strings to the same hash on both sides.
-/

namespace Tcpaillier

/-- Error outcomes mirrored from the error returns of the Go sources. -/
inductive GoErr where
  | emptyList
  | argOutOfRange (i : ℕ)
  | cipherOutOfRange
  | needShares (wanted got : ℕ)
  | repeatedShare (idx : ℕ)
  | badBitSize
  | badL
  | badK
  | badKRange
deriving DecidableEq

/-- Result of a Go function returning (value, error). -/
inductive GoRes (α : Type) where
  | ok (val : α)
  | err (e : GoErr)
deriving DecidableEq

/-- True when the result carries a value and a nil error. -/
def GoRes.isOk {α : Type} : GoRes α → Bool
  | .ok _ => true
  | .err _ => false

/-- Public key of the scheme, pub_key.go lines 17-25: modulus N, parameter S,
shares L, threshold K, verification values V and Vi, Delta = factorial of L,
and the combination constant. -/
structure PubKey where
  N : ℕ
  S : ℕ
  L : ℕ
  K : ℕ
  V : ℕ
  Vi : List ℕ
  Delta : ℕ
  Constant : ℕ
deriving DecidableEq

/-- Cached value n^s, pub_key.go line 44. -/
def PubKey.nToS (pk : PubKey) : ℕ := pk.N ^ pk.S

/-- Cached value n^(s+1), pub_key.go line 46. -/
def PubKey.nToSPlusOne (pk : PubKey) : ℕ := pk.N ^ (pk.S + 1)

/-- Extended Euclid with explicit fuel so the recursion is structural and
kernel-reducible.  With enough fuel, xgcdFuel fuel a b = (u, v) satisfies
u * a + v * b = gcd a b. -/
def xgcdFuel : ℕ → ℕ → ℕ → ℤ × ℤ
  | 0, _, _ => (1, 0)
  | fuel + 1, a, b =>
    if b = 0 then (1, 0)
    else
      let p := xgcdFuel fuel b (a % b)
      (p.2, p.1 - p.2 * ((a / b : ℕ) : ℤ))

/-- Modular inverse in the interval from 0 to M-1, the value big.Int
ModInverse produces when the operand is invertible modulo M. -/
def invMod (M a : ℕ) : ℕ :=
  ((xgcdFuel (M + 1) a M).1 % (M : ℤ)).toNat

/-- Bezout identity for the fueled extended Euclid. -/
theorem xgcdFuel_bezout :
    ∀ (fuel a b : ℕ), b ≤ fuel →
      (xgcdFuel fuel a b).1 * (a : ℤ) + (xgcdFuel fuel a b).2 * (b : ℤ) =
        (Nat.gcd a b : ℤ) := by
  intro fuel
  induction fuel with
  | zero =>
    intro a b hb
    interval_cases b
    simp [xgcdFuel]
  | succ fuel ih =>
    intro a b hb
    by_cases h0 : b = 0
    · subst h0
      simp [xgcdFuel]
    · have hbpos : 0 < b := Nat.pos_of_ne_zero h0
      have hr : a % b ≤ fuel := by
        have := Nat.mod_lt a hbpos
        omega
      have key := ih b (a % b) hr
      have hgcd : Nat.gcd a b = Nat.gcd b (a % b) := by
        rw [Nat.gcd_comm a b, Nat.gcd_rec b a]
        rw [Nat.gcd_comm (a % b) b]
      have hdiv : (b : ℤ) * ((a / b : ℕ) : ℤ) + ((a % b : ℕ) : ℤ) = (a : ℤ) := by
        exact_mod_cast congrArg (Nat.cast : ℕ → ℤ) (Nat.div_add_mod a b)
      simp only [xgcdFuel, if_neg h0]
      rw [hgcd, ← key, ← hdiv]
      ring

/-- When a is invertible modulo M, invMod M a is a right inverse. -/
theorem invMod_cancel {M a : ℕ} (hM : 0 < M) (h : Nat.Coprime a M) :
    a * invMod M a ≡ 1 [MOD M] := by
  have hbez := xgcdFuel_bezout (M + 1) a M (Nat.le_succ M)
  rw [h] at hbez
  have hMz : (0 : ℤ) < (M : ℤ) := by exact_mod_cast hM
  set u : ℤ := (xgcdFuel (M + 1) a M).1 with hu
  have hnn : 0 ≤ u % (M : ℤ) := Int.emod_nonneg u (by omega)
  have hcast : ((invMod M a : ℕ) : ℤ) = u % (M : ℤ) := by
    rw [invMod, ← hu, Int.toNat_of_nonneg hnn]
  have h1 : (a : ℤ) * u ≡ 1 [ZMOD (M : ℤ)] := by
    refine Int.modEq_iff_dvd.mpr ⟨(xgcdFuel (M + 1) a M).2, ?_⟩
    push_cast at hbez
    linarith
  have hmod : (a : ℤ) * (u % (M : ℤ)) ≡ 1 [ZMOD (M : ℤ)] :=
    (Int.ModEq.mul_left _ (Int.emod_emod_of_dvd u dvd_rfl)).trans h1
  have hz : ((a * invMod M a : ℕ) : ℤ) % (M : ℤ) = ((1 : ℕ) : ℤ) % (M : ℤ) := by
    push_cast
    rw [hcast]
    exact hmod
  have h2 : (((a * invMod M a) % M : ℕ) : ℤ) = ((1 % M : ℕ) : ℤ) := by
    rw [Int.natCast_mod, Int.natCast_mod]
    exact_mod_cast hz
  show a * invMod M a % M = 1 % M
  exact_mod_cast h2

/-- Square-and-multiply core of modular exponentiation, with explicit fuel
so the recursion is structural and kernel-reducible even for hash-sized
exponents, exactly as big.Int Exp performs modular exponentiation rather
than materializing b to the power e. -/
def powModAux (M : ℕ) : ℕ → ℕ → ℕ → ℕ
  | 0, _, _ => 1 % M
  | fuel + 1, b, e =>
    if e = 0 then 1 % M
    else
      let h := powModAux M fuel (b * b % M) (e / 2)
      if e % 2 = 1 then h * b % M else h

/-- Modular exponentiation with a natural exponent, big.Int Exp with a
non-negative exponent and modulus M. -/
def powModNat (M b e : ℕ) : ℕ := powModAux M (e + 1) b e

/-- The fueled square-and-multiply computes the power reduced modulo M. -/
theorem powModAux_eq (M : ℕ) :
    ∀ (fuel e b : ℕ), e ≤ fuel → powModAux M fuel b e = b ^ e % M := by
  intro fuel
  induction fuel with
  | zero =>
    intro e b he
    interval_cases e
    simp [powModAux]
  | succ fuel ih =>
    intro e b he
    by_cases h0 : e = 0
    · subst h0
      simp [powModAux]
    · have hhalf : e / 2 ≤ fuel := by omega
      rw [powModAux, if_neg h0]
      simp only [ih (e / 2) (b * b % M) hhalf]
      have hbb : (b * b % M) ^ (e / 2) % M = (b * b) ^ (e / 2) % M := by
        rw [← Nat.pow_mod]
      rw [hbb]
      by_cases hodd : e % 2 = 1
      · rw [if_pos hodd]
        have he2 : e = 2 * (e / 2) + 1 := by omega
        rw [Nat.mod_mul_mod]
        conv_rhs => rw [he2]
        congr 1
        ring
      · rw [if_neg hodd]
        have he2 : e = 2 * (e / 2) := by omega
        conv_rhs => rw [he2]
        congr 1
        ring

/-- The embedded modular exponentiation agrees with the reduced power. -/
theorem powModNat_eq (M b e : ℕ) : powModNat M b e = b ^ e % M :=
  powModAux_eq M (e + 1) e b (Nat.le_succ e)

/-- Modular exponentiation with an integer exponent: big.Int Exp computes
the inverse of the base modulo M when the exponent is negative. -/
def powModInt (M b : ℕ) (e : ℤ) : ℕ :=
  if 0 ≤ e then powModNat M b e.toNat else powModNat M (invMod M (b % M)) e.natAbs

/-- EncryptFixed, pub_key.go lines 72-89: c = (n+1)^(m mod n^(s+1)) times
r^(n^s), all modulo n^(s+1). -/
def encryptFixed (pk : PubKey) (msg r : ℕ) : ℕ :=
  ((pk.N + 1) ^ (msg % pk.nToSPlusOne) % pk.nToSPlusOne) *
    (r ^ pk.nToS % pk.nToSPlusOne) % pk.nToSPlusOne

/-- The loop of Add, pub_key.go lines 126-134: each element after the first
is range checked (error unless 0 < c < n^(s+1)) and multiplied into the
accumulator modulo n^(s+1); p tracks the position used in the error. -/
def addLoop (M : ℕ) (p : ℕ) (sum : ℤ) : List ℤ → GoRes ℤ
  | [] => .ok sum
  | c :: rest =>
    if (M : ℤ) ≤ c ∨ c ≤ 0 then .err (.argOutOfRange (p + 1))
    else addLoop M (p + 1) (sum * c % (M : ℤ)) rest

/-- Add, pub_key.go lines 118-136: empty list error, then the first element
seeds the accumulator without any range check. -/
def addGo (pk : PubKey) (cList : List ℤ) : GoRes ℤ :=
  match cList with
  | [] => .err .emptyList
  | c0 :: rest => addLoop pk.nToSPlusOne 1 c0 rest

/-- ReRand, pub_key.go lines 167-174: add an encryption of zero with the
supplied randomness. -/
def reRand (pk : PubKey) (c : ℤ) (r : ℕ) : GoRes ℤ :=
  addGo pk [c, (encryptFixed pk 0 r : ℤ)]

/-- MultiplyFixed, pub_key.go lines 153-163: range check on c, then
c^alpha modulo n^(s+1) is rerandomized with gamma. -/
def multiplyFixed (pk : PubKey) (c : ℤ) (alpha gamma : ℕ) : GoRes ℤ :=
  if (pk.nToSPlusOne : ℤ) ≤ c ∨ c < 0 then .err .cipherOutOfRange
  else reRand pk ((c.toNat ^ alpha % pk.nToSPlusOne : ℕ) : ℤ) gamma

/-- A tiny public key used for concrete counterexamples: N = 3, s = 1, so
n^(s+1) = 9. -/
def pkTiny : PubKey := ⟨3, 1, 2, 2, 1, [], 2, 1⟩

/-- The add loop succeeds exactly when every remaining element is strictly
between 0 and n^(s+1). -/
theorem addLoop_isOk (M : ℕ) :
    ∀ (rest : List ℤ) (p : ℕ) (sum : ℤ),
      (addLoop M p sum rest).isOk = true ↔
        ∀ c ∈ rest, 0 < c ∧ c < (M : ℤ) := by
  intro rest
  induction rest with
  | nil => intro p sum; simp [addLoop, GoRes.isOk]
  | cons c cs ih =>
    intro p sum
    by_cases h : (M : ℤ) ≤ c ∨ c ≤ 0
    · simp only [addLoop, if_pos h, GoRes.isOk]
      constructor
      · intro hco; cases hco
      · intro hall
        rcases hall c (by simp) with ⟨h1, h2⟩
        rcases h with h | h
        · exact absurd h (not_le.mpr h2)
        · exact absurd h (not_le.mpr h1)
    · have hb := h
      push_neg at hb
      simp only [addLoop, if_neg h]
      rw [ih]
      constructor
      · intro hall
        intro x hx
        rcases List.mem_cons.mp hx with rfl | hx
        · exact ⟨hb.2, hb.1⟩
        · exact hall x hx
      · intro hall x hx
        exact hall x (List.mem_cons_of_mem _ hx)

/-- The add loop never reports an empty list. -/
theorem addLoop_ne_empty (M : ℕ) :
    ∀ (rest : List ℤ) (p : ℕ) (sum : ℤ),
      addLoop M p sum rest ≠ .err .emptyList := by
  intro rest
  induction rest with
  | nil => intro p sum h; exact GoRes.noConfusion h
  | cons c cs ih =>
    intro p sum
    by_cases h : (M : ℤ) ≤ c ∨ c ≤ 0
    · simp only [addLoop, if_pos h]
      intro hco
      cases hco
    · simp only [addLoop, if_neg h]
      exact ih _ _

/-- Claim C2, amended: Add fails with EmptyList exactly on an empty list,
and range checks only the elements after the first, succeeding exactly when
the list is non-empty and every element after the first lies strictly
between 0 and n^(s+1); the first element is never range checked. -/
theorem claim_C2_amended (pk : PubKey) (cList : List ℤ) :
    ((addGo pk cList).isOk = true ↔
      (cList ≠ [] ∧ ∀ c ∈ cList.tail, 0 < c ∧ c < (pk.nToSPlusOne : ℤ))) ∧
    (addGo pk cList = .err .emptyList ↔ cList = []) := by
  constructor
  · cases cList with
    | nil => simp [addGo, GoRes.isOk]
    | cons c0 rest =>
      simp only [addGo, List.tail_cons, ne_eq, reduceCtorEq, not_false_iff, true_and]
      exact addLoop_isOk _ rest 1 c0
  · cases cList with
    | nil => simp [addGo]
    | cons c0 rest =>
      simp only [addGo, reduceCtorEq, iff_false]
      exact addLoop_ne_empty _ rest 1 c0

/-- Witness for the amended claim C2 at a concrete one-element list. -/
theorem claim_C2_amended_witness :
    ((addGo pkTiny [(5 : ℤ)]).isOk = true ↔
      (([(5 : ℤ)] : List ℤ) ≠ [] ∧
        ∀ c ∈ ([(5 : ℤ)] : List ℤ).tail, 0 < c ∧ c < (pkTiny.nToSPlusOne : ℤ))) ∧
    (addGo pkTiny [(5 : ℤ)] = .err .emptyList ↔ ([(5 : ℤ)] : List ℤ) = []) :=
  claim_C2_amended pkTiny [(5 : ℤ)]

/-- Claim C2, counterexample: the first element is not range checked, so a
single-element list whose element 12 lies far outside (0, n^(s+1)) = (0, 9)
is accepted and returned unchanged. -/
theorem claim_C2_counterexample :
    addGo pkTiny [(12 : ℤ)] = .ok 12 ∧
      ¬ ((0 : ℤ) < 12 ∧ (12 : ℤ) < (pkTiny.nToSPlusOne : ℤ)) := by
  constructor
  · rfl
  · intro h
    exact absurd h.2 (by decide)

/-- Claim C6: multiplication by a constant is the rerandomized power, i.e.
MultiplyFixed on an in-range c equals Add of c^alpha mod n^(s+1) with an
encryption of zero under gamma, and ReRand is Add with an encryption of
zero, exactly as the source composes them. -/
theorem claim_C6 (pk : PubKey) (c alpha gamma : ℕ) (hc : c < pk.nToSPlusOne) :
    multiplyFixed pk (c : ℤ) alpha gamma =
      addGo pk [((c ^ alpha % pk.nToSPlusOne : ℕ) : ℤ),
        ((encryptFixed pk 0 gamma : ℕ) : ℤ)] ∧
    ∀ (c2 : ℤ) (r : ℕ),
      reRand pk c2 r = addGo pk [c2, ((encryptFixed pk 0 r : ℕ) : ℤ)] := by
  constructor
  · have hnotrange : ¬ ((pk.nToSPlusOne : ℤ) ≤ (c : ℤ) ∨ (c : ℤ) < 0) := by
      push_neg
      exact ⟨by exact_mod_cast hc, by positivity⟩
    rw [multiplyFixed, if_neg hnotrange]
    simp [reRand]
  · intro c2 r
    rfl

/-- Witness for claim C6 at a concrete in-range ciphertext. -/
theorem claim_C6_witness :
    multiplyFixed pkTiny (5 : ℤ) 3 2 =
      addGo pkTiny [((5 ^ 3 % pkTiny.nToSPlusOne : ℕ) : ℤ),
        ((encryptFixed pkTiny 0 2 : ℕ) : ℤ)] ∧
    ∀ (c2 : ℤ) (r : ℕ),
      reRand pkTiny c2 r = addGo pkTiny [c2, ((encryptFixed pkTiny 0 r : ℕ) : ℤ)] :=
  claim_C6 pkTiny 5 3 2 (by decide)

/-- Key share, threshold_share.go lines 12-16: index, secret scalar and the
public key. -/
structure KeyShare where
  pk : PubKey
  Index : ℕ
  Si : ℕ
deriving DecidableEq

/-- Decryption share, the (index, partial decryption) pair of
decryption_share.go. -/
structure DecryptionShare where
  Index : ℕ
  Ci : ℕ
deriving DecidableEq

/-- PartialDecryption, threshold_share.go lines 20-33: range check on c and
then c raised to 2 Delta s_i modulo n^(s+1). -/
def partDecryptGo (ks : KeyShare) (c : ℤ) : GoRes ℕ :=
  if (ks.pk.nToSPlusOne : ℤ) ≤ c ∨ c < 0 then .err .cipherOutOfRange
  else .ok (powModNat ks.pk.nToSPlusOne c.toNat (2 * ks.pk.Delta * ks.Si))

/-- Horner evaluation of a polynomial given by its coefficient list,
polynomial.go lines 51-58. -/
def polyEval (p : List ℕ) (x : ℕ) : ℕ :=
  p.foldr (fun a y => y * x + a) 0

/-- The repeated-share scan of CombineShares, pub_key.go lines 208-215:
returns the first index that was already seen. -/
def findDup (seen : List ℕ) : List ℕ → Option ℕ
  | [] => none
  | x :: xs => if seen.contains x then some x else findDup (x :: seen) xs

/-- Numerator of the scaled Lagrange coefficient, pub_key.go lines 220-227:
Delta times the product of the other indices. -/
def lambda2Num (delta : ℤ) (idxs : List ℕ) (i : ℕ) : ℤ :=
  delta * ((idxs.filter fun j => j != i).map fun (j : ℕ) => ((j : ℕ) : ℤ)).prod

/-- Denominator of the scaled Lagrange coefficient, pub_key.go line 225:
the product of the differences j - i over the other indices j. -/
def lambda2Den (idxs : List ℕ) (i : ℕ) : ℤ :=
  ((idxs.filter fun j => j != i).map fun (j : ℕ) => ((j : ℕ) : ℤ) - ((i : ℕ) : ℤ)).prod

/-- The scaled Lagrange coefficient of CombineShares, pub_key.go lines
228-229: the numerator times two, divided by the denominator with the
truncated division of big.Int Quo; no modular inverse is involved. -/
def lambda2 (delta : ℤ) (idxs : List ℕ) (i : ℕ) : ℤ :=
  Int.tdiv (lambda2Num delta idxs i * 2) (lambda2Den idxs i)

/-- CombineShares, pub_key.go lines 194-240: require at least K shares,
truncate to the first K, scan those K for a repeated index, combine with the
scaled Lagrange exponents, and return Constant times (cPrime - 1) / N
reduced modulo N. -/
def combineShares (pk : PubKey) (shares : List DecryptionShare) : GoRes ℤ :=
  if shares.length < pk.K then .err (.needShares pk.K shares.length)
  else
    let taken := shares.take pk.K
    let idxs := taken.map DecryptionShare.Index
    match findDup [] idxs with
    | some x => .err (.repeatedShare x)
    | none =>
      let M := pk.nToSPlusOne
      let cPrime : ℕ := taken.foldl
        (fun acc sh => acc * powModInt M sh.Ci (lambda2 (pk.Delta : ℤ) idxs sh.Index) % M) 1
      let lVal : ℤ := ((cPrime : ℤ) - 1) / (pk.N : ℤ)
      .ok ((pk.Constant : ℤ) * lVal % (pk.N : ℤ))

/-- NewFixedKey, the key generation with caller-supplied primes (README.md
related source, lines 218-308), with the random draws made explicit: coeffs
are the random polynomial coefficients and r the random square root of v.
The source builds the error for s < 1 but, unlike every sibling check, does
not return it, and the err variable is overwritten by later assignments, so
a violation of the s constraint does not abort the generation; the embedding
mirrors that control flow. -/
def newFixedKey (bitSize s l k : ℕ) (p p1 q q1 : ℕ) (coeffs : List ℕ)
    (r : ℕ) : GoRes (List KeyShare × PubKey) :=
  if bitSize < 64 then .err .badBitSize
  else if l ≤ 1 then .err .badL
  else if k = 0 then .err .badK
  else if k < l / 2 + 1 ∨ l < k then .err .badKRange
  else
    let n := p * q
    let m := p1 * q1
    let nm := n * m
    let nToS := n ^ s
    let M := n ^ (s + 1)
    let d := m * invMod n m
    let poly := d :: coeffs
    let v := r * r % M
    let delta := Nat.factorial l
    let constant := invMod nToS (4 * (delta * delta))
    let pk : PubKey :=
      ⟨n, s, l, k, v,
        (List.range l).map fun idx => powModNat M v (polyEval poly (idx + 1) % nm * delta),
        delta, constant⟩
    .ok ((List.range l).map fun idx =>
      KeyShare.mk pk (idx + 1) (polyEval poly (idx + 1) % nm), pk)

/-- Claim C9: the s check of key generation sets the error but does not
return it, so generation with s = 0 succeeds.  This key appears below as the
concrete output at bitSize 64, s 0, primes (5, 2, 7, 3), polynomial d + 17 x
and v-root 2. -/
def pkC9 : PubKey := ⟨35, 0, 3, 2, 4, [1, 1, 1], 6, 0⟩

/-- Claim C9 (code bug): key generation called with s = 0 and otherwise
valid parameters returns full key material and a nil error instead of the
InvalidParameters failure the specification requires; the s < 1 check in the
source builds an error value but lacks the return every other check has. -/
theorem claim_C9_bug :
    newFixedKey 64 0 3 2 5 2 7 3 [17] 2 =
      .ok ([⟨pkC9, 1, 53⟩, ⟨pkC9, 2, 70⟩, ⟨pkC9, 3, 87⟩], pkC9) ∧
    (newFixedKey 64 0 3 2 5 2 7 3 [17] 2).isOk = true := by
  constructor
  · rfl
  · rfl

/-- Claim C10: CombineShares truncates its argument list to the first K
shares before the duplicate scan and before combining, so the result on any
list of at least K shares equals the result on its first K shares; shares
beyond position K never influence the output, and a duplicate index whose
second occurrence lies beyond position K is silently ignored. -/
theorem claim_C10 (pk : PubKey) (shares : List DecryptionShare)
    (h : pk.K ≤ shares.length) :
    combineShares pk shares = combineShares pk (shares.take pk.K) := by
  have h1 : ¬ shares.length < pk.K := not_lt.mpr h
  have h2 : ¬ (shares.take pk.K).length < pk.K := by
    rw [List.length_take]
    omega
  simp only [combineShares, if_neg h1, if_neg h2, List.take_take, min_self]

/-- Witness for claim C10: a duplicate of index 1 sitting at position 3,
beyond the threshold K = 2, neither triggers the repeated-share error nor
changes the result. -/
theorem claim_C10_witness :
    pkTiny.K ≤ ([⟨1, 2⟩, ⟨2, 3⟩, ⟨1, 9⟩] : List DecryptionShare).length ∧
    combineShares pkTiny [⟨1, 2⟩, ⟨2, 3⟩, ⟨1, 9⟩] =
      combineShares pkTiny (([⟨1, 2⟩, ⟨2, 3⟩, ⟨1, 9⟩] : List DecryptionShare).take pkTiny.K) ∧
    (combineShares pkTiny [⟨1, 2⟩, ⟨2, 3⟩, ⟨1, 9⟩]).isOk = true :=
  ⟨by decide, claim_C10 pkTiny [⟨1, 2⟩, ⟨2, 3⟩, ⟨1, 9⟩] (by decide), by decide⟩

/-- Concrete key with s = 2 produced by the key generation below: N = 35,
N^s = 1225, N^(s+1) = 42875, Delta = 6, Constant = 604. -/
def pkC1 : PubKey := ⟨35, 2, 3, 2, 4, [23486, 29401, 36541], 6, 604⟩

set_option maxRecDepth 40000 in
/-- Claim C1 (code bug): decrypting through the full pipeline on a key with
s = 2 returns the plaintext modulo N instead of modulo N^s: the last step of
CombineShares reduces L times Constant modulo N (pub_key.go line 237), so
the plaintext 40, in range for Z over N^s = 1225, decrypts to 40 mod 35 = 5. -/
theorem claim_C1_bug :
    newFixedKey 64 2 3 2 5 2 7 3 [17] 2 =
      .ok ([⟨pkC1, 1, 53⟩, ⟨pkC1, 2, 70⟩, ⟨pkC1, 3, 87⟩], pkC1) ∧
    encryptFixed pkC1 40 2 = 8857 ∧
    partDecryptGo ⟨pkC1, 1, 53⟩ 8857 = .ok 8401 ∧
    partDecryptGo ⟨pkC1, 2, 70⟩ 8857 = .ok 18376 ∧
    combineShares pkC1 [⟨1, 8401⟩, ⟨2, 18376⟩] = .ok 5 ∧
    40 % pkC1.nToS = 40 ∧ (5 : ℤ) ≠ 40 := by
  refine ⟨by rfl, by rfl, by rfl, by rfl, by rfl, by rfl, by decide⟩

/-- Absolute value of a product of integers is the product of absolute
values. -/
theorem natAbs_listProd : ∀ (L : List ℤ), L.prod.natAbs = (L.map Int.natAbs).prod
  | [] => by simp
  | x :: xs => by
    simp only [List.prod_cons, List.map_cons, Int.natAbs_mul, natAbs_listProd xs]

/-- Negating every factor of a product flips the sign by the length. -/
theorem listProd_map_neg (f : ℕ → ℤ) :
    ∀ (L : List ℕ), (L.map fun j => -(f j)).prod = (-1) ^ L.length * (L.map f).prod
  | [] => by simp
  | x :: xs => by
    simp only [List.map_cons, List.prod_cons, listProd_map_neg f xs, List.length_cons,
      pow_succ]
    ring

/-- Claim C4: for pairwise distinct share indices drawn from 1..l and any
index i among them, the Lagrange denominator of CombineShares divides two
times the Delta-scaled numerator exactly (with Delta = factorial l), and the
value lambda2 obtained by the truncated integer division of the source is
the exact integer 2 Delta times the product over the other indices j of
(-j) / (i - j); no modular inverse enters this computation. -/
theorem claim_C4 (l i : ℕ) (idxs : List ℕ) (hnd : idxs.Nodup)
    (hrange : ∀ j ∈ idxs, 1 ≤ j ∧ j ≤ l) (hi : i ∈ idxs) :
    lambda2Den idxs i ∣ lambda2Num (Nat.factorial l : ℤ) idxs i * 2 ∧
    lambda2 (Nat.factorial l : ℤ) idxs i *
        ((idxs.filter fun j => j != i).map fun (j : ℕ) => (i : ℤ) - (j : ℤ)).prod =
      2 * (Nat.factorial l : ℤ) *
        ((idxs.filter fun j => j != i).map fun (j : ℕ) => -((j : ℕ) : ℤ)).prod := by
  classical
  set F := idxs.filter (fun j => j != i) with hF
  have hFnd : F.Nodup := hnd.filter _
  have hFmem : ∀ j ∈ F, (1 ≤ j ∧ j ≤ l) ∧ j ≠ i := by
    intro j hj
    rw [hF, List.mem_filter] at hj
    exact ⟨hrange j hj.1, by simpa using hj.2⟩
  have hil : 1 ≤ i ∧ i ≤ l := hrange i hi
  set S : Finset ℕ := F.toFinset with hS
  have hSmem : ∀ j ∈ S, (1 ≤ j ∧ j ≤ l) ∧ j ≠ i := by
    intro j hj
    exact hFmem j (List.mem_toFinset.mp hj)
  set A : Finset ℕ := S.filter (fun j => j < i) with hA
  set B : Finset ℕ := S.filter (fun j => ¬ j < i) with hB
  -- the absolute value of the denominator splits into the two one-sided
  -- difference products
  have habs : (lambda2Den idxs i).natAbs =
      (∏ j ∈ A, (i - j)) * (∏ j ∈ B, (j - i)) := by
    rw [lambda2Den, natAbs_listProd, List.map_map, ← hF]
    rw [← List.prod_toFinset (Int.natAbs ∘ fun (j : ℕ) => (j : ℤ) - (i : ℤ)) hFnd, ← hS]
    rw [← Finset.prod_filter_mul_prod_filter_not S (fun j => j < i)
      (Int.natAbs ∘ fun (j : ℕ) => (j : ℤ) - (i : ℤ)), ← hA, ← hB]
    simp only [Function.comp_apply]
    congr 1
    · refine Finset.prod_congr rfl ?_
      intro j hj
      have hji : j < i := (Finset.mem_filter.mp hj).2
      have : (j : ℤ) - (i : ℤ) = -(((i - j : ℕ) : ℤ)) := by
        push_cast [Nat.cast_sub (le_of_lt hji)]
        ring
      rw [this, Int.natAbs_neg, Int.natAbs_ofNat]
    · refine Finset.prod_congr rfl ?_
      intro j hj
      have hji : ¬ j < i := (Finset.mem_filter.mp hj).2
      have : (j : ℤ) - (i : ℤ) = ((j - i : ℕ) : ℤ) := by
        push_cast [Nat.cast_sub (not_lt.mp hji)]
        ring
      rw [this, Int.natAbs_ofNat]
  -- the lower differences divide factorial (i - 1)
  have hAdvd : (∏ j ∈ A, (i - j)) ∣ Nat.factorial (i - 1) := by
    have hinj : ∀ x ∈ A, ∀ y ∈ A, i - x = i - y → x = y := by
      intro x hx y hy hxy
      have hx' : x < i := (Finset.mem_filter.mp hx).2
      have hy' : y < i := (Finset.mem_filter.mp hy).2
      omega
    have himg : ∏ t ∈ A.image (fun j => i - j), t = ∏ j ∈ A, (i - j) :=
      Finset.prod_image hinj
    rw [← himg, ← Finset.prod_Ico_id_eq_factorial (i - 1)]
    refine Finset.prod_dvd_prod_of_subset _ _ _ ?_
    intro t ht
    simp only [Finset.mem_image] at ht
    obtain ⟨j, hjA, rfl⟩ := ht
    have hj1 : 1 ≤ j := (hSmem j (Finset.mem_filter.mp hjA).1).1.1
    have hj2 : j < i := (Finset.mem_filter.mp hjA).2
    simp only [Finset.mem_Ico]
    omega
  -- the upper differences divide factorial (l - i)
  have hBdvd : (∏ j ∈ B, (j - i)) ∣ Nat.factorial (l - i) := by
    have hinj : ∀ x ∈ B, ∀ y ∈ B, x - i = y - i → x = y := by
      intro x hx y hy hxy
      have hx' : ¬ x < i := (Finset.mem_filter.mp hx).2
      have hy' : ¬ y < i := (Finset.mem_filter.mp hy).2
      omega
    have himg : ∏ t ∈ B.image (fun j => j - i), t = ∏ j ∈ B, (j - i) :=
      Finset.prod_image hinj
    rw [← himg, ← Finset.prod_Ico_id_eq_factorial (l - i)]
    refine Finset.prod_dvd_prod_of_subset _ _ _ ?_
    intro t ht
    simp only [Finset.mem_image] at ht
    obtain ⟨j, hjB, rfl⟩ := ht
    have hjS := (Finset.mem_filter.mp hjB).1
    have hji : ¬ j < i := (Finset.mem_filter.mp hjB).2
    have hjl : j ≤ l := (hSmem j hjS).1.2
    have hjne : j ≠ i := (hSmem j hjS).2
    simp only [Finset.mem_Ico]
    omega
  -- hence the (integer) denominator divides factorial l
  have hnatdvd : (lambda2Den idxs i).natAbs ∣ Nat.factorial l := by
    rw [habs]
    refine (mul_dvd_mul hAdvd hBdvd).trans ?_
    refine (mul_dvd_mul_right (Nat.factorial_dvd_factorial ?_) _).trans
      (Nat.factorial_mul_factorial_dvd_factorial hil.2)
    omega
  have hdvdInt : lambda2Den idxs i ∣ ((Nat.factorial l : ℕ) : ℤ) := by
    rw [← Int.natAbs_dvd_natAbs, Int.natAbs_ofNat]
    exact hnatdvd
  have hdvd2 : lambda2Den idxs i ∣ lambda2Num (Nat.factorial l : ℤ) idxs i * 2 := by
    refine hdvdInt.trans ?_
    rw [lambda2Num]
    exact dvd_mul_of_dvd_left (dvd_mul_right _ _) 2
  refine ⟨hdvd2, ?_⟩
  have hcancel : lambda2 (Nat.factorial l : ℤ) idxs i * lambda2Den idxs i =
      lambda2Num (Nat.factorial l : ℤ) idxs i * 2 := by
    rw [lambda2]
    exact Int.tdiv_mul_cancel hdvd2
  have hmap1 : (F.map fun (j : ℕ) => (i : ℤ) - (j : ℤ)) =
      F.map fun (j : ℕ) => -((j : ℤ) - (i : ℤ)) := by
    refine List.map_congr_left ?_
    intro j _
    ring
  rw [hmap1, listProd_map_neg (fun (j : ℕ) => (j : ℤ) - (i : ℤ)) F,
    listProd_map_neg (fun (j : ℕ) => ((j : ℕ) : ℤ)) F]
  have hnum : lambda2Num (Nat.factorial l : ℤ) idxs i =
      (Nat.factorial l : ℤ) * (F.map fun (j : ℕ) => ((j : ℕ) : ℤ)).prod := by
    rw [lambda2Num, hF]
  rw [hnum] at hcancel
  have hden : lambda2Den idxs i =
      (F.map fun (j : ℕ) => ((j : ℕ) : ℤ) - ((i : ℕ) : ℤ)).prod := by
    rw [lambda2Den, hF]
  rw [hden] at hcancel
  linear_combination ((-1 : ℤ) ^ F.length) * hcancel

/-- Witness for claim C4 at l = 3, indices 1 and 2, pivot i = 2. -/
theorem claim_C4_witness :
    lambda2Den [1, 2] 2 ∣ lambda2Num (Nat.factorial 3 : ℤ) [1, 2] 2 * 2 ∧
    lambda2 (Nat.factorial 3 : ℤ) [1, 2] 2 *
        (([1, 2].filter fun j => j != 2).map fun (j : ℕ) => ((2 : ℕ) : ℤ) - (j : ℤ)).prod =
      2 * (Nat.factorial 3 : ℤ) *
        (([1, 2].filter fun j => j != 2).map fun (j : ℕ) => -((j : ℕ) : ℤ)).prod :=
  claim_C4 3 2 [1, 2] (by decide) (by decide) (by decide)

/-- The element N + 1 has order dividing N ^ k modulo N ^ (k + 1); this is
the structural fact behind Damgard-Jurik encryption. -/
theorem onePlusN_pow_pow (N k : ℕ) : (N + 1) ^ N ^ k ≡ 1 [MOD N ^ (k + 1)] := by
  have h : ((N : ℤ)) ∣ ((N : ℤ) + 1) - 1 := by simp
  have hd := dvd_sub_pow_of_dvd_sub (R := ℤ) h k
  have h1 : (1 : ℤ) ^ N ^ k = 1 := one_pow _
  have hone : 1 ≤ (N + 1) ^ N ^ k := Nat.one_le_pow _ _ (Nat.succ_pos N)
  refine (Nat.modEq_iff_dvd' hone).mpr ?_ |>.symm
  have : ((N ^ (k + 1) : ℕ) : ℤ) ∣ (((N + 1) ^ N ^ k - 1 : ℕ) : ℤ) := by
    push_cast [hone]
    simpa [h1] using hd
  exact_mod_cast this

/-- If c ^ T is congruent to 1, exponents of c can be reduced modulo T. -/
theorem pow_mod_cycle {c M T : ℕ} (h1 : c ^ T ≡ 1 [MOD M]) (a : ℕ) :
    c ^ a ≡ c ^ (a % T) [MOD M] := by
  conv_lhs => rw [← Nat.mod_add_div a T]
  rw [pow_add, pow_mul]
  calc c ^ (a % T) * (c ^ T) ^ (a / T)
      ≡ c ^ (a % T) * 1 ^ (a / T) [MOD M] := Nat.ModEq.mul_left _ (h1.pow _)
    _ = c ^ (a % T) := by ring

/-- Exponents of N + 1 reduce modulo N ^ s when working modulo N ^ (s + 1). -/
theorem powNPlusOne_reduce_nToS (pk : PubKey) (a : ℕ) :
    (pk.N + 1) ^ a ≡ (pk.N + 1) ^ (a % pk.nToS) [MOD pk.nToSPlusOne] :=
  pow_mod_cycle (onePlusN_pow_pow pk.N pk.S) a

/-- Exponents of N + 1 also reduce modulo N ^ (s + 1) itself, since the
order N ^ s divides it. -/
theorem powNPlusOne_reduce_M (pk : PubKey) (a : ℕ) :
    (pk.N + 1) ^ a ≡ (pk.N + 1) ^ (a % pk.nToSPlusOne) [MOD pk.nToSPlusOne] := by
  refine pow_mod_cycle ?_ a
  have h := onePlusN_pow_pow pk.N (pk.S + 1)
  exact (h.of_dvd (pow_dvd_pow pk.N (Nat.le_succ (pk.S + 1)))).symm.symm

/-- Reduction modulo M preserves coprimality with M. -/
theorem coprime_mod_left {a M : ℕ} (h : Nat.Coprime a M) :
    Nat.Coprime (a % M) M := by
  have : Nat.gcd (a % M) M = Nat.gcd M a := (Nat.gcd_rec M a).symm
  rw [Nat.Coprime, this, Nat.gcd_comm]
  exact h

/-- A product of list elements coprime to n is coprime to n. -/
theorem listProd_coprime {n : ℕ} :
    ∀ {rs : List ℕ}, (∀ r ∈ rs, Nat.Coprime r n) → Nat.Coprime rs.prod n
  | [], _ => by simp [Nat.Coprime]
  | r :: rs, h => by
    rw [List.prod_cons]
    exact Nat.Coprime.mul (h r (by simp))
      (listProd_coprime fun x hx => h x (List.mem_cons_of_mem _ hx))

/-- EncryptFixed in collapsed form: a single reduction of the product. -/
theorem encryptFixed_eq (pk : PubKey) (m r : ℕ) :
    encryptFixed pk m r =
      (pk.N + 1) ^ (m % pk.nToSPlusOne) * r ^ pk.nToS % pk.nToSPlusOne := by
  rw [encryptFixed, ← Nat.mul_mod]

/-- EncryptFixed is congruent to the unreduced Damgard-Jurik form. -/
theorem encryptFixed_modeq (pk : PubKey) (m r : ℕ) :
    encryptFixed pk m r ≡ (pk.N + 1) ^ m * r ^ pk.nToS [MOD pk.nToSPlusOne] := by
  rw [encryptFixed_eq]
  calc (pk.N + 1) ^ (m % pk.nToSPlusOne) * r ^ pk.nToS % pk.nToSPlusOne
      ≡ (pk.N + 1) ^ (m % pk.nToSPlusOne) * r ^ pk.nToS [MOD pk.nToSPlusOne] :=
        Nat.mod_modEq _ _
    _ ≡ (pk.N + 1) ^ m * r ^ pk.nToS [MOD pk.nToSPlusOne] :=
        Nat.ModEq.mul_right _ (powNPlusOne_reduce_M pk m).symm

/-- EncryptFixed with randomness coprime to N yields a unit modulo
N ^ (s + 1). -/
theorem encryptFixed_coprime (pk : PubKey) (m r : ℕ)
    (hr : Nat.Coprime r pk.N) :
    Nat.Coprime (encryptFixed pk m r) pk.nToSPlusOne := by
  rw [encryptFixed_eq]
  refine coprime_mod_left ?_
  refine Nat.Coprime.mul ?_ ?_
  · have h1 : Nat.Coprime (pk.N + 1) pk.N := by
      rw [Nat.add_comm]
      exact Nat.coprime_add_self_left.mpr (Nat.coprime_one_left _)
    show Nat.Coprime ((pk.N + 1) ^ (m % pk.nToSPlusOne)) (pk.N ^ (pk.S + 1))
    exact Nat.Coprime.pow _ _ h1
  · exact (hr.pow_right _).pow_left _

/-- A value coprime to a modulus at least 2 is positive. -/
theorem coprime_pos {c M : ℕ} (hM : 2 ≤ M) (h : Nat.Coprime c M) : 0 < c := by
  rcases Nat.eq_zero_or_pos c with rfl | h1
  · exfalso
    rw [Nat.Coprime, Nat.gcd_zero_left] at h
    omega
  · exact h1

/-- The modulus n^(s+1) is at least N itself. -/
theorem nToSPlusOne_ge (pk : PubKey) : pk.N ≤ pk.nToSPlusOne :=
  Nat.le_self_pow (Nat.succ_ne_zero _) _

/-- Every element of a zipWith list comes from a pair of elements. -/
theorem zipWith_mem {α β γ : Type} (f : α → β → γ) :
    ∀ (xs : List α) (ys : List β) (c : γ), c ∈ List.zipWith f xs ys →
      ∃ x ∈ xs, ∃ y ∈ ys, c = f x y
  | [], _, c, h => by simp at h
  | _ :: _, [], c, h => by simp at h
  | x :: xs, y :: ys, c, h => by
    rcases List.mem_cons.mp h with rfl | h
    · exact ⟨x, by simp, y, by simp, rfl⟩
    · obtain ⟨x1, hx1, y1, hy1, rfl⟩ := zipWith_mem f xs ys c h
      exact ⟨x1, List.mem_cons_of_mem _ hx1, y1, List.mem_cons_of_mem _ hy1, rfl⟩

/-- Product of encryptions is congruent to the encryption of the sum with
the product randomness. -/
theorem zip_prod_modeq (pk : PubKey) :
    ∀ (ms rs : List ℕ), ms.length = rs.length →
      (List.zipWith (fun m r => encryptFixed pk m r) ms rs).prod ≡
        (pk.N + 1) ^ ms.sum * rs.prod ^ pk.nToS [MOD pk.nToSPlusOne]
  | [], [], _ => by
    simpa using (Nat.ModEq.refl 1 : 1 ≡ 1 [MOD pk.nToSPlusOne])
  | [], r :: rs, h => by simp at h
  | m :: ms, [], h => by simp at h
  | m :: ms, r :: rs, h => by
    rw [List.zipWith_cons_cons, List.prod_cons, List.sum_cons, List.prod_cons]
    calc encryptFixed pk m r * (List.zipWith (fun m r => encryptFixed pk m r) ms rs).prod
        ≡ ((pk.N + 1) ^ m * r ^ pk.nToS) *
            ((pk.N + 1) ^ ms.sum * rs.prod ^ pk.nToS) [MOD pk.nToSPlusOne] :=
          (encryptFixed_modeq pk m r).mul (zip_prod_modeq pk ms rs (by simpa using h))
      _ = (pk.N + 1) ^ (m + ms.sum) * (r * rs.prod) ^ pk.nToS := by
          rw [pow_add, mul_pow]
          ring

/-- The loop of Add multiplies all in-range elements into the accumulator
modulo n^(s+1). -/
theorem addLoop_prod (M : ℕ) :
    ∀ (rest : List ℕ) (p : ℕ) (acc : ℕ), acc < M →
      (∀ c ∈ rest, 0 < c ∧ c < M) →
      addLoop M p ((acc : ℕ) : ℤ) (rest.map fun (c : ℕ) => ((c : ℕ) : ℤ)) =
        .ok (((acc * rest.prod % M : ℕ) : ℤ))
  | [], p, acc, hacc, _ => by
    simp only [List.map_nil, addLoop, List.prod_nil, mul_one, Nat.mod_eq_of_lt hacc]
  | c :: rest, p, acc, hacc, hmem => by
    have hc := hmem c (by simp)
    have hM : 0 < M := lt_of_le_of_lt (Nat.zero_le _) hc.2
    have hcond : ¬ ((M : ℤ) ≤ ((c : ℕ) : ℤ) ∨ ((c : ℕ) : ℤ) ≤ 0) := by
      push_neg
      constructor
      · exact_mod_cast hc.2
      · exact_mod_cast hc.1
    simp only [List.map_cons, addLoop, if_neg hcond]
    have hcast : ((acc : ℕ) : ℤ) * ((c : ℕ) : ℤ) % ((M : ℕ) : ℤ) =
        ((acc * c % M : ℕ) : ℤ) := by
      push_cast
      ring_nf
    rw [hcast]
    rw [addLoop_prod M rest (p + 1) (acc * c % M) (Nat.mod_lt _ hM)
      (fun x hx => hmem x (List.mem_cons_of_mem _ hx))]
    have : acc * c % M * rest.prod % M = acc * (c * rest.prod) % M := by
      rw [Nat.mod_mul_mod, mul_assoc]
    rw [List.prod_cons, this]

/-- Claim C5: on a non-empty list of in-range ciphertexts Add returns their
product modulo n^(s+1); and Add of encryptions of messages ms with
randomness rs (coprime to N) is the encryption of the sum of ms reduced
modulo n^s, with randomness the product of rs reduced modulo n^(s+1), which
is again a unit. -/
theorem claim_C5 (pk : PubKey) :
    (∀ (cs : List ℕ), cs ≠ [] → (∀ c ∈ cs, 0 < c ∧ c < pk.nToSPlusOne) →
      addGo pk (cs.map fun (c : ℕ) => ((c : ℕ) : ℤ)) =
        .ok ((cs.prod % pk.nToSPlusOne : ℕ) : ℤ)) ∧
    (∀ (ms rs : List ℕ), ms.length = rs.length → ms ≠ [] →
      (∀ r ∈ rs, Nat.Coprime r pk.N) → 2 ≤ pk.N →
      addGo pk ((List.zipWith (fun m r => encryptFixed pk m r) ms rs).map
          fun (c : ℕ) => ((c : ℕ) : ℤ)) =
        .ok ((((pk.N + 1) ^ (ms.sum % pk.nToS) *
          (rs.prod % pk.nToSPlusOne) ^ pk.nToS) % pk.nToSPlusOne : ℕ) : ℤ) ∧
      Nat.Coprime (rs.prod % pk.nToSPlusOne) pk.nToSPlusOne) := by
  have parta : ∀ (cs : List ℕ), cs ≠ [] → (∀ c ∈ cs, 0 < c ∧ c < pk.nToSPlusOne) →
      addGo pk (cs.map fun (c : ℕ) => ((c : ℕ) : ℤ)) =
        .ok ((cs.prod % pk.nToSPlusOne : ℕ) : ℤ) := by
    intro cs hne hmem
    cases cs with
    | nil => exact absurd rfl hne
    | cons c0 rest =>
      have hc0 := hmem c0 (by simp)
      simp only [List.map_cons, addGo]
      rw [addLoop_prod pk.nToSPlusOne rest 1 c0 hc0.2
        (fun x hx => hmem x (List.mem_cons_of_mem _ hx))]
      rw [List.prod_cons]
  refine ⟨parta, ?_⟩
  intro ms rs hlen hne hr hN
  have hM2 : 2 ≤ pk.nToSPlusOne := le_trans hN (nToSPlusOne_ge pk)
  have hrange : ∀ c ∈ List.zipWith (fun m r => encryptFixed pk m r) ms rs,
      0 < c ∧ c < pk.nToSPlusOne := by
    intro c hc
    obtain ⟨m, _, r, hrmem, rfl⟩ := zipWith_mem _ ms rs c hc
    have hco := encryptFixed_coprime pk m r (hr r hrmem)
    refine ⟨coprime_pos hM2 hco, ?_⟩
    rw [encryptFixed_eq]
    exact Nat.mod_lt _ (by omega)
  have hzne : List.zipWith (fun m r => encryptFixed pk m r) ms rs ≠ [] := by
    cases ms with
    | nil => exact absurd rfl hne
    | cons m ms =>
      cases rs with
      | nil => simp at hlen
      | cons r rs => simp
  have h1 := parta _ hzne hrange
  rw [h1]
  constructor
  · congr 2
    have hchain : (List.zipWith (fun m r => encryptFixed pk m r) ms rs).prod ≡
        (pk.N + 1) ^ (ms.sum % pk.nToS) *
          (rs.prod % pk.nToSPlusOne) ^ pk.nToS [MOD pk.nToSPlusOne] := by
      calc (List.zipWith (fun m r => encryptFixed pk m r) ms rs).prod
          ≡ (pk.N + 1) ^ ms.sum * rs.prod ^ pk.nToS [MOD pk.nToSPlusOne] :=
            zip_prod_modeq pk ms rs hlen
        _ ≡ (pk.N + 1) ^ (ms.sum % pk.nToS) *
            (rs.prod % pk.nToSPlusOne) ^ pk.nToS [MOD pk.nToSPlusOne] :=
            (powNPlusOne_reduce_nToS pk ms.sum).mul
              (((Nat.mod_modEq rs.prod pk.nToSPlusOne).symm).pow _)
    exact hchain
  · exact coprime_mod_left
      (listProd_coprime fun r hrm => (hr r hrm).pow_right _)

/-- Witness for claim C5 on the tiny key: product form on the list (2, 5)
and sum form on messages (1, 2) with randomness (2, 4). -/
theorem claim_C5_witness :
    addGo pkTiny (([2, 5] : List ℕ).map fun (c : ℕ) => ((c : ℕ) : ℤ)) =
      .ok ((([2, 5] : List ℕ).prod % pkTiny.nToSPlusOne : ℕ) : ℤ) ∧
    (addGo pkTiny ((List.zipWith (fun m r => encryptFixed pkTiny m r) [1, 2] [2, 4]).map
        fun (c : ℕ) => ((c : ℕ) : ℤ)) =
      .ok ((((pkTiny.N + 1) ^ (([1, 2] : List ℕ).sum % pkTiny.nToS) *
        (([2, 4] : List ℕ).prod % pkTiny.nToSPlusOne) ^ pkTiny.nToS) %
          pkTiny.nToSPlusOne : ℕ) : ℤ) ∧
      Nat.Coprime (([2, 4] : List ℕ).prod % pkTiny.nToSPlusOne) pkTiny.nToSPlusOne) :=
  ⟨(claim_C5 pkTiny).1 [2, 5] (by decide) (by decide),
    (claim_C5 pkTiny).2 [1, 2] [2, 4] (by decide) (by decide) (by decide) (by decide)⟩

/-- Support of RandomModN, pub_key.go lines 374-376: rand.Int with bound
pk.N returns a uniform value in the interval from 0 to N - 1, so exactly the
x with x < N are possible. -/
def RandomModNSupport (pk : PubKey) (x : ℕ) : Prop := x < pk.N

/-- A key with N = 4 and s = 2 for the sampling counterexample. -/
def pkC7 : PubKey := ⟨4, 2, 2, 2, 1, [], 2, 1⟩

/-- Claim C7, counterexample: the committed exponent x of EncryptProof is
drawn by RandomModN, whose support is the interval below N, not below N^s:
for N = 4, s = 2 the value 5 lies in the interval below N^s = 16 claimed by
the specification but can never be produced. -/
theorem claim_C7_counterexample :
    5 < pkC7.nToS ∧ ¬ RandomModNSupport pkC7 5 := by
  constructor
  · decide
  · show ¬ (5 < pkC7.N)
    decide

/-- Claim C7, amended: EncryptProof samples x by RandomModN, uniform on the
interval below N (and u on the interval from 1 to N^(s+1) - 1); every such x
still lies below N^s, but for s at least 2 the values from N up to N^s - 1
are never drawn. -/
theorem claim_C7_amended (pk : PubKey) (x : ℕ) (hS : 1 ≤ pk.S)
    (h : RandomModNSupport pk x) : x < pk.nToS :=
  lt_of_lt_of_le h (Nat.le_self_pow (by omega) _)

/-- Witness for claim C7: the value 3 is in the support for N = 4 and lies
below N^s. -/
theorem claim_C7_witness : 3 < pkC7.nToS :=
  claim_C7_amended pkC7 3 (by decide) (by show (3 : ℕ) < pkC7.N; decide)

/-- Encryption proof, the exported-field version of the related zk source
(part_007, lines 201-203). -/
structure EncZK where
  B : ℕ
  W : ℕ
  Z : ℕ
deriving DecidableEq

/-- Multiplication proof (part_007, lines 207-209). -/
structure MulZK where
  CAlpha : ℕ
  A : ℕ
  B : ℕ
  W : ℕ
  Y : ℕ
  Z : ℕ
deriving DecidableEq

/-- Decryption share proof (part_007, lines 213-215). -/
structure DecShareZK where
  V : ℕ
  Vi : ℕ
  Z : ℕ
  E : ℕ
deriving DecidableEq

/-- Verifier of the encryption proof, part_007 lines 218-258: recompute the
challenge from c and B, then check (n+1)^W Z^(n^s) against B c^e, all
modulo n^(s+1).  H stands for the SHA-256 challenge derivation applied to
the hashed values in source order. -/
def verifyEncZK (H : List ℕ → ℕ) (pk : PubKey) (c : ℕ) (zk : EncZK) : Bool :=
  let e := H [c, zk.B]
  let left := powModNat pk.nToSPlusOne (pk.N + 1) zk.W *
    powModNat pk.nToSPlusOne zk.Z pk.nToS % pk.nToSPlusOne
  let right := zk.B * powModNat pk.nToSPlusOne c e % pk.nToSPlusOne
  left == right

/-- Verifier of the multiplication proof, part_007 lines 261-329: challenge
from (ca, CAlpha, d, A, B), then the two checks of the source. -/
def verifyMulZK (H : List ℕ → ℕ) (pk : PubKey) (d ca : ℕ) (zk : MulZK) : Bool :=
  let e := H [ca, zk.CAlpha, d, zk.A, zk.B]
  let zk1 := powModNat pk.nToSPlusOne (pk.N + 1) zk.W *
    powModNat pk.nToSPlusOne zk.Z pk.nToS % pk.nToSPlusOne
  let zk2 := powModNat pk.nToSPlusOne zk.CAlpha e * zk.B % pk.nToSPlusOne
  let zk3 := powModNat pk.nToSPlusOne ca zk.W *
    powModNat pk.nToSPlusOne zk.Y pk.nToS % pk.nToSPlusOne
  let zk4 := powModNat pk.nToSPlusOne d e * zk.A % pk.nToSPlusOne
  zk1 == zk2 && zk3 == zk4

/-- The constant-zero challenge function, a concrete instance of the
abstract challenge parameter used for closed counterexamples. -/
def hZero : List ℕ → ℕ := fun _ => 0

/-- EncryptProof, pub_key.go lines 244-291, with the random draws x (from
RandomModN) and u (from RandomModNToSPlusOneStar) explicit; srand is the
encryption randomness of c and H the Fiat-Shamir challenge on (c, b). -/
def encryptProofGo (H : List ℕ → ℕ) (pk : PubKey) (message c srand x u : ℕ) : EncZK :=
  let M := pk.nToSPlusOne
  let b := powModNat M (pk.N + 1) x * powModNat M u pk.nToS % M
  let e := H [c, b]
  let dummy := x + e * message
  let w := dummy % pk.nToS
  let t := dummy / pk.nToS
  let z := u * powModNat M srand e * powModNat M (pk.N + 1) t % M
  ⟨b, w, z⟩

/-- The proof constructed by MultiplyProof after its range checks,
pub_key.go lines 312-371, with the random draws x, u, v explicit. -/
def mulProofMake (H : List ℕ → ℕ) (pk : PubKey)
    (ca cAlpha d alpha srand gamma x u v : ℕ) : MulZK :=
  let M := pk.nToSPlusOne
  let a := powModNat M ca x * powModNat M v pk.nToS % M
  let b := powModNat M (pk.N + 1) x * powModNat M u pk.nToS % M
  let e := H [ca, cAlpha, d, a, b]
  let dummy := x + e * alpha
  let w := dummy % pk.nToS
  let t := dummy / pk.nToS
  let z := u * powModNat M srand e * powModNat M (pk.N + 1) t % M
  let y := v * powModNat M ca t * powModNat M gamma e % M
  ⟨cAlpha, a, b, w, y, z⟩

/-- MultiplyProof, pub_key.go lines 296-372: the two range checks followed
by the proof construction. -/
def multiplyProofGo (H : List ℕ → ℕ) (pk : PubKey)
    (ca cAlpha d alpha srand gamma x u v : ℕ) : GoRes MulZK :=
  if pk.nToSPlusOne ≤ ca then .err .cipherOutOfRange
  else if pk.nToSPlusOne ≤ cAlpha then .err .cipherOutOfRange
  else .ok (mulProofMake H pk ca cAlpha d alpha srand gamma x u v)

/-- DecryptProof, threshold_share.go lines 61-99, with the random draw r
explicit: commitments from c^4 and V, challenge over (a, b, c^4, ci^2), and
response z = Si e Delta + r. -/
def decryptProofGo (H : List ℕ → ℕ) (ks : KeyShare) (c ci r : ℕ) : DecShareZK :=
  let M := ks.pk.nToSPlusOne
  let cTo4 := powModNat M c 4
  let a := powModNat M cTo4 r
  let b := powModNat M ks.pk.V r
  let ciTo2 := powModNat M ci 2
  let e := H [a, b, cTo4, ciTo2]
  let z := ks.Si * e * ks.pk.Delta + r
  ⟨ks.pk.V, ks.pk.Vi.getD (ks.Index - 1) 0, z, e⟩

/-- Verifier of the decryption-share proof, part_007 lines 332-378:
reconstruct the commitments from z and the negated challenge exponents and
compare the recomputed challenge with the stored one. -/
def verifyDecShareZK (H : List ℕ → ℕ) (pk : PubKey) (c : ℕ)
    (ds : DecryptionShare) (zk : DecShareZK) : Bool :=
  let M := pk.nToSPlusOne
  let cTo4 := powModNat M c 4
  let cTo4z := powModNat M cTo4 zk.Z
  let ciTo2 := powModNat M ds.Ci 2
  let ciToMinus2e := powModInt M ds.Ci (-(2 * (zk.E : ℤ)))
  let a := cTo4z * ciToMinus2e % M
  let vToZ := powModNat M zk.V zk.Z
  let viToMinusE := powModInt M zk.Vi (-((zk.E : ℕ) : ℤ))
  let b := vToZ * viToMinusE % M
  H [a, b, cTo4, ciTo2] == zk.E

/-- A negative exponent in the embedded big.Int Exp is the inverse of the
reduced base raised to the absolute value. -/
theorem powModInt_neg_eq (M b n : ℕ) :
    powModInt M b (-((n : ℕ) : ℤ)) = invMod M (b % M) ^ n % M := by
  cases n with
  | zero => simp [powModInt, powModNat_eq]
  | succ n =>
    rw [powModInt, if_neg (by omega), powModNat_eq]
    congr 1

/-- Cancellation step of the decryption-share verification: when X is R
times C^e and I inverts C, multiplying X by I^e returns R. -/
theorem mod_cancel {M : ℕ} {X C R I : ℕ} (e : ℕ)
    (hX : X ≡ R * C ^ e [MOD M]) (hI : C * I ≡ 1 [MOD M]) :
    X * I ^ e % M = R % M := by
  calc X * I ^ e
      ≡ R * C ^ e * I ^ e [MOD M] := hX.mul_right _
    _ = R * (C * I) ^ e := by rw [mul_pow]; ring
    _ ≡ R * 1 ^ e [MOD M] := Nat.ModEq.mul_left _ (hI.pow e)
    _ = R := by ring

/-- The first verification equation shared by the encryption and the
multiplication proof: for any challenge e, the response (w, z) built from
x, u and the encryption of mm under rr satisfies the check. -/
theorem check1_eq (pk : PubKey) (mm rr x u e : ℕ) :
    (pk.N + 1) ^ ((x + e * mm) % pk.nToS) % pk.nToSPlusOne *
        ((u * (rr ^ e % pk.nToSPlusOne) *
          ((pk.N + 1) ^ ((x + e * mm) / pk.nToS) % pk.nToSPlusOne) % pk.nToSPlusOne) ^
            pk.nToS % pk.nToSPlusOne) % pk.nToSPlusOne =
      (pk.N + 1) ^ x % pk.nToSPlusOne * (u ^ pk.nToS % pk.nToSPlusOne) % pk.nToSPlusOne *
        (encryptFixed pk mm rr ^ e % pk.nToSPlusOne) % pk.nToSPlusOne := by
  show Nat.ModEq pk.nToSPlusOne
    ((pk.N + 1) ^ ((x + e * mm) % pk.nToS) % pk.nToSPlusOne *
      ((u * (rr ^ e % pk.nToSPlusOne) *
        ((pk.N + 1) ^ ((x + e * mm) / pk.nToS) % pk.nToSPlusOne) % pk.nToSPlusOne) ^
          pk.nToS % pk.nToSPlusOne))
    ((pk.N + 1) ^ x % pk.nToSPlusOne * (u ^ pk.nToS % pk.nToSPlusOne) % pk.nToSPlusOne *
      (encryptFixed pk mm rr ^ e % pk.nToSPlusOne))
  have hzmid : u * (rr ^ e % pk.nToSPlusOne) *
      ((pk.N + 1) ^ ((x + e * mm) / pk.nToS) % pk.nToSPlusOne) ≡
        u * rr ^ e * (pk.N + 1) ^ ((x + e * mm) / pk.nToS) [MOD pk.nToSPlusOne] :=
    ((Nat.ModEq.refl u).mul (Nat.mod_modEq _ _)).mul (Nat.mod_modEq _ _)
  calc (pk.N + 1) ^ ((x + e * mm) % pk.nToS) % pk.nToSPlusOne *
        ((u * (rr ^ e % pk.nToSPlusOne) *
          ((pk.N + 1) ^ ((x + e * mm) / pk.nToS) % pk.nToSPlusOne) % pk.nToSPlusOne) ^
            pk.nToS % pk.nToSPlusOne)
      ≡ (pk.N + 1) ^ ((x + e * mm) % pk.nToS) *
          (u * rr ^ e * (pk.N + 1) ^ ((x + e * mm) / pk.nToS)) ^ pk.nToS
            [MOD pk.nToSPlusOne] :=
        (Nat.mod_modEq _ _).mul
          ((Nat.mod_modEq _ _).trans
            (Nat.ModEq.pow _ ((Nat.mod_modEq _ _).trans hzmid)))
    _ = (pk.N + 1) ^ ((x + e * mm) % pk.nToS + (x + e * mm) / pk.nToS * pk.nToS) *
          (u ^ pk.nToS * rr ^ (e * pk.nToS)) := by
        rw [pow_add]
        ring
    _ = (pk.N + 1) ^ (x + e * mm) * (u ^ pk.nToS * rr ^ (e * pk.nToS)) := by
        rw [Nat.mod_add_div']
    _ = (pk.N + 1) ^ x * u ^ pk.nToS * ((pk.N + 1) ^ mm * rr ^ pk.nToS) ^ e := by
        rw [pow_add, mul_pow, ← pow_mul, ← pow_mul]
        ring
    _ ≡ (pk.N + 1) ^ x * u ^ pk.nToS * encryptFixed pk mm rr ^ e [MOD pk.nToSPlusOne] :=
        Nat.ModEq.mul_left _ (((encryptFixed_modeq pk mm rr).symm).pow e)
    _ ≡ (pk.N + 1) ^ x % pk.nToSPlusOne * (u ^ pk.nToS % pk.nToSPlusOne) %
          pk.nToSPlusOne * (encryptFixed pk mm rr ^ e % pk.nToSPlusOne)
            [MOD pk.nToSPlusOne] :=
        (((Nat.mod_modEq _ _).trans
          ((Nat.mod_modEq _ _).mul (Nat.mod_modEq _ _))).mul (Nat.mod_modEq _ _)).symm

/-- The second verification equation of the multiplication proof: for any
challenge e, the response (w, y) built from x, v and gamma satisfies the
check against the rerandomized product d. -/
theorem check2_eq (pk : PubKey) (ca alpha gamma x v e : ℕ) :
    ca ^ ((x + e * alpha) % pk.nToS) % pk.nToSPlusOne *
        ((v * (ca ^ ((x + e * alpha) / pk.nToS) % pk.nToSPlusOne) *
          (gamma ^ e % pk.nToSPlusOne) % pk.nToSPlusOne) ^ pk.nToS % pk.nToSPlusOne) %
          pk.nToSPlusOne =
      (ca ^ alpha % pk.nToSPlusOne * encryptFixed pk 0 gamma % pk.nToSPlusOne) ^ e %
          pk.nToSPlusOne *
        (ca ^ x % pk.nToSPlusOne * (v ^ pk.nToS % pk.nToSPlusOne) % pk.nToSPlusOne) %
        pk.nToSPlusOne := by
  show Nat.ModEq pk.nToSPlusOne
    (ca ^ ((x + e * alpha) % pk.nToS) % pk.nToSPlusOne *
      ((v * (ca ^ ((x + e * alpha) / pk.nToS) % pk.nToSPlusOne) *
        (gamma ^ e % pk.nToSPlusOne) % pk.nToSPlusOne) ^ pk.nToS % pk.nToSPlusOne))
    ((ca ^ alpha % pk.nToSPlusOne * encryptFixed pk 0 gamma % pk.nToSPlusOne) ^ e %
        pk.nToSPlusOne *
      (ca ^ x % pk.nToSPlusOne * (v ^ pk.nToS % pk.nToSPlusOne) % pk.nToSPlusOne))
  have hymid : v * (ca ^ ((x + e * alpha) / pk.nToS) % pk.nToSPlusOne) *
      (gamma ^ e % pk.nToSPlusOne) ≡
        v * ca ^ ((x + e * alpha) / pk.nToS) * gamma ^ e [MOD pk.nToSPlusOne] :=
    ((Nat.ModEq.refl v).mul (Nat.mod_modEq _ _)).mul (Nat.mod_modEq _ _)
  have hd : ca ^ alpha % pk.nToSPlusOne * encryptFixed pk 0 gamma % pk.nToSPlusOne ≡
      ca ^ alpha * gamma ^ pk.nToS [MOD pk.nToSPlusOne] := by
    refine (Nat.mod_modEq _ _).trans ?_
    refine ((Nat.mod_modEq _ _).mul_right _).trans ?_
    refine Nat.ModEq.mul_left _ ?_
    have h := encryptFixed_modeq pk 0 gamma
    simpa using h
  calc ca ^ ((x + e * alpha) % pk.nToS) % pk.nToSPlusOne *
        ((v * (ca ^ ((x + e * alpha) / pk.nToS) % pk.nToSPlusOne) *
          (gamma ^ e % pk.nToSPlusOne) % pk.nToSPlusOne) ^ pk.nToS % pk.nToSPlusOne)
      ≡ ca ^ ((x + e * alpha) % pk.nToS) *
          (v * ca ^ ((x + e * alpha) / pk.nToS) * gamma ^ e) ^ pk.nToS
            [MOD pk.nToSPlusOne] :=
        (Nat.mod_modEq _ _).mul
          ((Nat.mod_modEq _ _).trans
            (Nat.ModEq.pow _ ((Nat.mod_modEq _ _).trans hymid)))
    _ = ca ^ ((x + e * alpha) % pk.nToS + (x + e * alpha) / pk.nToS * pk.nToS) *
          (v ^ pk.nToS * gamma ^ (e * pk.nToS)) := by
        rw [pow_add]
        ring
    _ = ca ^ (x + e * alpha) * (v ^ pk.nToS * gamma ^ (e * pk.nToS)) := by
        rw [Nat.mod_add_div']
    _ = (ca ^ alpha * gamma ^ pk.nToS) ^ e * (ca ^ x * v ^ pk.nToS) := by
        rw [pow_add, mul_pow, ← pow_mul, ← pow_mul]
        ring
    _ ≡ (ca ^ alpha % pk.nToSPlusOne * encryptFixed pk 0 gamma % pk.nToSPlusOne) ^ e %
          pk.nToSPlusOne *
        (ca ^ x % pk.nToSPlusOne * (v ^ pk.nToS % pk.nToSPlusOne) % pk.nToSPlusOne)
          [MOD pk.nToSPlusOne] := by
        refine Nat.ModEq.mul ?_ ?_
        · exact (((Nat.mod_modEq _ _).trans (hd.pow e))).symm
        · exact ((Nat.mod_modEq _ _).trans
            ((Nat.mod_modEq _ _).mul (Nat.mod_modEq _ _))).symm

/-- The reconstructed first commitment of the decryption-share verifier
equals the commitment the prover hashed. -/
theorem decshare_a_eq (M : ℕ) (hM : 0 < M) (c ci si delta e r : ℕ)
    (hci : ci = powModNat M c (2 * delta * si)) (hcop : Nat.Coprime ci M) :
    powModNat M (powModNat M c 4) (si * e * delta + r) *
      powModInt M ci (-(2 * (e : ℤ))) % M = powModNat M (powModNat M c 4) r := by
  have hcast : (-(2 * (e : ℤ))) = -(((2 * e : ℕ) : ℕ) : ℤ) := by push_cast; ring
  rw [hcast, powModInt_neg_eq]
  simp only [powModNat_eq]
  show Nat.ModEq M
    ((c ^ 4 % M) ^ (si * e * delta + r) % M * (invMod M (ci % M) ^ (2 * e) % M))
    ((c ^ 4 % M) ^ r)
  have h1 : (c ^ 4 % M) ^ (si * e * delta) ≡ ci ^ (2 * e) [MOD M] := by
    calc (c ^ 4 % M) ^ (si * e * delta)
        ≡ (c ^ 4) ^ (si * e * delta) [MOD M] := (Nat.mod_modEq _ _).pow _
      _ = (c ^ (2 * delta * si)) ^ (2 * e) := by
          rw [← pow_mul, ← pow_mul]
          ring_nf
      _ ≡ ci ^ (2 * e) [MOD M] := by
          refine Nat.ModEq.pow _ ?_
          rw [hci, powModNat_eq]
          exact (Nat.mod_modEq _ _).symm
  have hIc : ci * invMod M (ci % M) ≡ 1 [MOD M] := by
    calc ci * invMod M (ci % M)
        ≡ ci % M * invMod M (ci % M) [MOD M] :=
          Nat.ModEq.mul_right _ (Nat.mod_modEq _ _).symm
      _ ≡ 1 [MOD M] := invMod_cancel hM (coprime_mod_left hcop)
  calc (c ^ 4 % M) ^ (si * e * delta + r) % M * (invMod M (ci % M) ^ (2 * e) % M)
      ≡ (c ^ 4 % M) ^ (si * e * delta + r) * invMod M (ci % M) ^ (2 * e) [MOD M] :=
        (Nat.mod_modEq _ _).mul (Nat.mod_modEq _ _)
    _ = (c ^ 4 % M) ^ r * ((c ^ 4 % M) ^ (si * e * delta) * invMod M (ci % M) ^ (2 * e)) := by
        rw [pow_add]
        ring
    _ ≡ (c ^ 4 % M) ^ r * (ci ^ (2 * e) * invMod M (ci % M) ^ (2 * e)) [MOD M] :=
        Nat.ModEq.mul_left _ (h1.mul_right _)
    _ = (c ^ 4 % M) ^ r * (ci * invMod M (ci % M)) ^ (2 * e) := by
        rw [mul_pow]
    _ ≡ (c ^ 4 % M) ^ r * 1 ^ (2 * e) [MOD M] := Nat.ModEq.mul_left _ (hIc.pow _)
    _ = (c ^ 4 % M) ^ r := by ring

/-- The reconstructed second commitment of the decryption-share verifier
equals the commitment the prover hashed. -/
theorem decshare_b_eq (M : ℕ) (hM : 0 < M) (v vi si delta e r : ℕ)
    (hvi : vi = powModNat M v (si * delta)) (hcop : Nat.Coprime vi M) :
    powModNat M v (si * e * delta + r) * powModInt M vi (-((e : ℕ) : ℤ)) % M =
      powModNat M v r := by
  rw [powModInt_neg_eq]
  simp only [powModNat_eq]
  show Nat.ModEq M
    (v ^ (si * e * delta + r) % M * (invMod M (vi % M) ^ e % M)) (v ^ r)
  have h1 : v ^ (si * e * delta) ≡ vi ^ e [MOD M] := by
    calc v ^ (si * e * delta)
        = (v ^ (si * delta)) ^ e := by
          rw [← pow_mul]
          ring_nf
      _ ≡ vi ^ e [MOD M] := by
          refine Nat.ModEq.pow _ ?_
          rw [hvi, powModNat_eq]
          exact (Nat.mod_modEq _ _).symm
  have hIv : vi * invMod M (vi % M) ≡ 1 [MOD M] := by
    calc vi * invMod M (vi % M)
        ≡ vi % M * invMod M (vi % M) [MOD M] :=
          Nat.ModEq.mul_right _ (Nat.mod_modEq _ _).symm
      _ ≡ 1 [MOD M] := invMod_cancel hM (coprime_mod_left hcop)
  calc v ^ (si * e * delta + r) % M * (invMod M (vi % M) ^ e % M)
      ≡ v ^ (si * e * delta + r) * invMod M (vi % M) ^ e [MOD M] :=
        (Nat.mod_modEq _ _).mul (Nat.mod_modEq _ _)
    _ = v ^ r * (v ^ (si * e * delta) * invMod M (vi % M) ^ e) := by
        rw [pow_add]
        ring
    _ ≡ v ^ r * (vi ^ e * invMod M (vi % M) ^ e) [MOD M] :=
        Nat.ModEq.mul_left _ (h1.mul_right _)
    _ = v ^ r * (vi * invMod M (vi % M)) ^ e := by rw [mul_pow]
    _ ≡ v ^ r * 1 ^ e [MOD M] := Nat.ModEq.mul_left _ (hIv.pow _)
    _ = v ^ r := by ring

/-- MultiplyFixed on an in-range ciphertext with unit randomness returns
exactly the rerandomized product. -/
theorem multiplyFixed_ok (pk : PubKey) (ca alpha gamma : ℕ) (hN : 2 ≤ pk.N)
    (hca : ca < pk.nToSPlusOne) (hg : Nat.Coprime gamma pk.N) :
    multiplyFixed pk ((ca : ℕ) : ℤ) alpha gamma =
      .ok (((ca ^ alpha % pk.nToSPlusOne * encryptFixed pk 0 gamma %
        pk.nToSPlusOne : ℕ)) : ℤ) := by
  have hM2 : 2 ≤ pk.nToSPlusOne := le_trans hN (nToSPlusOne_ge pk)
  have henc := encryptFixed_coprime pk 0 gamma hg
  have hpos : 0 < encryptFixed pk 0 gamma := coprime_pos hM2 henc
  have hlt : encryptFixed pk 0 gamma < pk.nToSPlusOne := by
    rw [encryptFixed_eq]
    exact Nat.mod_lt _ (by omega)
  have hcond : ¬ ((pk.nToSPlusOne : ℤ) ≤ ((ca : ℕ) : ℤ) ∨ ((ca : ℕ) : ℤ) < 0) := by
    push_neg
    exact ⟨by exact_mod_cast hca, by positivity⟩
  rw [multiplyFixed, if_neg hcond, reRand, addGo]
  have hzcond : ¬ ((pk.nToSPlusOne : ℤ) ≤ ((encryptFixed pk 0 gamma : ℕ) : ℤ) ∨
      ((encryptFixed pk 0 gamma : ℕ) : ℤ) ≤ 0) := by
    push_neg
    exact ⟨by exact_mod_cast hlt, by exact_mod_cast hpos⟩
  simp only [addLoop, if_neg hzcond]
  congr 1

/-- Claim C3: for every challenge function, every proof produced by the
prescribed provers verifies: the encryption proof of EncryptProof on a
fixed-randomness encryption, the multiplication proof of MultiplyProof on
the rerandomized product of MultiplyFixed, and the decryption-share proof
of DecryptProof on a partial decryption with a consistent verification
value Vi. -/
theorem claim_C3 (H : List ℕ → ℕ) :
    (∀ (pk : PubKey) (m r x u : ℕ),
      verifyEncZK H pk (encryptFixed pk m r)
        (encryptProofGo H pk m (encryptFixed pk m r) r x u) = true) ∧
    (∀ (pk : PubKey) (ca alpha srand gamma x u v : ℕ),
      2 ≤ pk.N → ca < pk.nToSPlusOne → Nat.Coprime gamma pk.N →
      multiplyFixed pk ((ca : ℕ) : ℤ) alpha gamma =
        .ok (((ca ^ alpha % pk.nToSPlusOne * encryptFixed pk 0 gamma %
          pk.nToSPlusOne : ℕ)) : ℤ) ∧
      multiplyProofGo H pk ca (encryptFixed pk alpha srand)
          (ca ^ alpha % pk.nToSPlusOne * encryptFixed pk 0 gamma % pk.nToSPlusOne)
          alpha srand gamma x u v =
        .ok (mulProofMake H pk ca (encryptFixed pk alpha srand)
          (ca ^ alpha % pk.nToSPlusOne * encryptFixed pk 0 gamma % pk.nToSPlusOne)
          alpha srand gamma x u v) ∧
      verifyMulZK H pk
        (ca ^ alpha % pk.nToSPlusOne * encryptFixed pk 0 gamma % pk.nToSPlusOne) ca
        (mulProofMake H pk ca (encryptFixed pk alpha srand)
          (ca ^ alpha % pk.nToSPlusOne * encryptFixed pk 0 gamma % pk.nToSPlusOne)
          alpha srand gamma x u v) = true) ∧
    (∀ (ks : KeyShare) (c r ci : ℕ), 1 ≤ ks.pk.N →
      Nat.Coprime c ks.pk.N → Nat.Coprime ks.pk.V ks.pk.N →
      ks.pk.Vi.getD (ks.Index - 1) 0 =
        powModNat ks.pk.nToSPlusOne ks.pk.V (ks.Si * ks.pk.Delta) →
      ci = powModNat ks.pk.nToSPlusOne c (2 * ks.pk.Delta * ks.Si) →
      verifyDecShareZK H ks.pk c ⟨ks.Index, ci⟩
        (decryptProofGo H ks c ci r) = true) := by
  refine ⟨?_, ?_, ?_⟩
  · intro pk m r x u
    simp only [verifyEncZK, encryptProofGo, powModNat_eq]
    rw [beq_iff_eq]
    exact check1_eq pk m r x u _
  · intro pk ca alpha srand gamma x u v hN hca hg
    have hM2 : 2 ≤ pk.nToSPlusOne := le_trans hN (nToSPlusOne_ge pk)
    refine ⟨multiplyFixed_ok pk ca alpha gamma hN hca hg, ?_, ?_⟩
    · rw [multiplyProofGo, if_neg (not_le.mpr hca), if_neg]
      rw [not_le, encryptFixed_eq]
      exact Nat.mod_lt _ (by omega)
    · simp only [verifyMulZK, mulProofMake, powModNat_eq]
      rw [Bool.and_eq_true, beq_iff_eq, beq_iff_eq]
      constructor
      · conv_rhs => rw [Nat.mul_comm]
        exact check1_eq pk alpha srand x u _
      · exact check2_eq pk ca alpha gamma x v _
  · intro ks c r ci hN hc hv hvi hci
    have hM : 0 < ks.pk.nToSPlusOne := by
      have := nToSPlusOne_ge ks.pk
      omega
    have hcM : Nat.Coprime c ks.pk.nToSPlusOne := Nat.Coprime.pow_right _ hc
    have hvM : Nat.Coprime ks.pk.V ks.pk.nToSPlusOne := Nat.Coprime.pow_right _ hv
    have hcicop : Nat.Coprime ci ks.pk.nToSPlusOne := by
      rw [hci, powModNat_eq]
      exact coprime_mod_left (hcM.pow_left _)
    have hvicop : Nat.Coprime (ks.pk.Vi.getD (ks.Index - 1) 0) ks.pk.nToSPlusOne := by
      rw [hvi, powModNat_eq]
      exact coprime_mod_left (hvM.pow_left _)
    simp only [verifyDecShareZK, decryptProofGo]
    rw [decshare_a_eq ks.pk.nToSPlusOne hM c ci ks.Si ks.pk.Delta _ r hci hcicop]
    rw [decshare_b_eq ks.pk.nToSPlusOne hM ks.pk.V _ ks.Si ks.pk.Delta _ r hvi hvicop]
    exact beq_self_eq_true _

/-- Witness for claim C3: concrete verifications of all three provers, the
encryption and multiplication parts on the tiny key and the decryption
share on the s = 2 key with share 1. -/
theorem claim_C3_witness :
    verifyEncZK hZero pkTiny (encryptFixed pkTiny 2 2)
      (encryptProofGo hZero pkTiny 2 (encryptFixed pkTiny 2 2) 2 3 2) = true ∧
    verifyMulZK hZero pkTiny
      (5 ^ 3 % pkTiny.nToSPlusOne * encryptFixed pkTiny 0 2 % pkTiny.nToSPlusOne) 5
      (mulProofMake hZero pkTiny 5 (encryptFixed pkTiny 3 2)
        (5 ^ 3 % pkTiny.nToSPlusOne * encryptFixed pkTiny 0 2 % pkTiny.nToSPlusOne)
        3 2 2 1 2 4) = true ∧
    verifyDecShareZK hZero pkC1 8857
      ⟨1, powModNat pkC1.nToSPlusOne 8857 (2 * pkC1.Delta * 53)⟩
      (decryptProofGo hZero ⟨pkC1, 1, 53⟩ 8857
        (powModNat pkC1.nToSPlusOne 8857 (2 * pkC1.Delta * 53)) 7) = true :=
  ⟨(claim_C3 hZero).1 pkTiny 2 2 3 2,
    ((claim_C3 hZero).2.1 pkTiny 5 3 2 2 1 2 4 (by decide) (by decide) (by decide)).2.2,
    (claim_C3 hZero).2.2 ⟨pkC1, 1, 53⟩ 8857 7
      (powModNat pkC1.nToSPlusOne 8857 (2 * pkC1.Delta * 53))
      (by decide) (by decide) (by decide) (by decide) rfl⟩

/-- Shifting the base of a modular exponentiation by the modulus does not
change the result. -/
theorem powModNat_base_shift (M b k : ℕ) :
    powModNat M (b + M) k = powModNat M b k := by
  rw [powModNat_eq, powModNat_eq]
  exact Nat.ModEq.pow k (Nat.add_mod_right b M)

/-- The same base-shift invariance for the integer-exponent form: the base
is reduced before inversion as well. -/
theorem powModInt_base_shift (M b : ℕ) (e : ℤ) :
    powModInt M (b + M) e = powModInt M b e := by
  unfold powModInt
  by_cases h : 0 ≤ e
  · rw [if_pos h, if_pos h, powModNat_base_shift]
  · rw [if_neg h, if_neg h, Nat.add_mod_right]

/-- Word truncation to 32 bits. -/
def w32 (x : ℕ) : ℕ := x % 4294967296

/-- Right rotation of a 32-bit word. -/
def rotr32 (n x : ℕ) : ℕ := w32 ((x >>> n) ||| (x <<< (32 - n)))

/-- Big sigma 0 of SHA-256. -/
def bsig0 (x : ℕ) : ℕ := rotr32 2 x ^^^ rotr32 13 x ^^^ rotr32 22 x

/-- Big sigma 1 of SHA-256. -/
def bsig1 (x : ℕ) : ℕ := rotr32 6 x ^^^ rotr32 11 x ^^^ rotr32 25 x

/-- Small sigma 0 of SHA-256. -/
def ssig0 (x : ℕ) : ℕ := rotr32 7 x ^^^ rotr32 18 x ^^^ (x >>> 3)

/-- Small sigma 1 of SHA-256. -/
def ssig1 (x : ℕ) : ℕ := rotr32 17 x ^^^ rotr32 19 x ^^^ (x >>> 10)

/-- Choice function of SHA-256. -/
def chF (x y z : ℕ) : ℕ := (x &&& y) ^^^ ((x ^^^ 4294967295) &&& z)

/-- Majority function of SHA-256. -/
def majF (x y z : ℕ) : ℕ := (x &&& y) ^^^ (x &&& z) ^^^ (y &&& z)

/-- The 64 round constants of SHA-256. -/
def shaK : List ℕ :=
  [1116352408, 1899447441, 3049323471, 3921009573, 961987163, 1508970993,
   2453635748, 2870763221, 3624381080, 310598401, 607225278, 1426881987,
   1925078388, 2162078206, 2614888103, 3248222580, 3835390401, 4022224774,
   264347078, 604807628, 770255983, 1249150122, 1555081692, 1996064986,
   2554220882, 2821834349, 2952996808, 3210313671, 3336571891, 3584528711,
   113926993, 338241895, 666307205, 773529912, 1294757372, 1396182291,
   1695183700, 1986661051, 2177026350, 2456956037, 2730485921, 2820302411,
   3259730800, 3345764771, 3516065817, 3600352804, 4094571909, 275423344,
   430227734, 506948616, 659060556, 883997877, 958139571, 1322822218,
   1537002063, 1747873779, 1955562222, 2024104815, 2227730452, 2361852424,
   2428436474, 2756734187, 3204031479, 3329325298]

/-- Message-schedule extension of SHA-256: append k further words. -/
def extendW : ℕ → List ℕ → List ℕ
  | 0, ws => ws
  | k + 1, ws =>
    extendW k (ws ++ [w32 (ssig1 (ws.getD (ws.length - 2) 0) +
      ws.getD (ws.length - 7) 0 + ssig0 (ws.getD (ws.length - 15) 0) +
      ws.getD (ws.length - 16) 0)])

/-- One compression round of SHA-256 on the eight-word state. -/
def shaRound (st : List ℕ) (wk : ℕ × ℕ) : List ℕ :=
  match st with
  | [a, b, c, d, e, f, g, h] =>
    let t1 := w32 (h + bsig1 e + chF e f g + wk.2 + wk.1)
    let t2 := w32 (bsig0 a + majF a b c)
    [w32 (t1 + t2), a, b, c, w32 (d + t1), e, f, g]
  | st => st

/-- Big-endian packing of bytes into 32-bit words. -/
def bytesToWords : List ℕ → List ℕ
  | b0 :: b1 :: b2 :: b3 :: rest =>
    (((b0 * 256 + b1) * 256 + b2) * 256 + b3) :: bytesToWords rest
  | _ => []

/-- Process one 64-byte block of SHA-256. -/
def processBlock (h : List ℕ) (block : List ℕ) : List ℕ :=
  let ws := extendW 48 (bytesToWords block)
  let st := (List.zip ws shaK).foldl shaRound h
  List.zipWith (fun x y => w32 (x + y)) h st

/-- SHA-256 padding: a 1 bit, zeros, and the 64-bit big-endian length. -/
def padMsg (msg : List ℕ) : List ℕ :=
  let L := msg.length
  let z := (119 - L % 64) % 64
  msg ++ [128] ++ List.replicate z 0 ++
    ([56, 48, 40, 32, 24, 16, 8, 0].map fun k => (8 * L) >>> k % 256)

/-- Split a byte list into 64-byte blocks (fuel keeps it structural). -/
def chunk64 : ℕ → List ℕ → List (List ℕ)
  | 0, _ => []
  | _ + 1, [] => []
  | fuel + 1, bs => bs.take 64 :: chunk64 fuel (bs.drop 64)

/-- SHA-256 of a byte sequence, returned as the big-endian integer that
big.Int SetBytes builds from the 32-byte digest. -/
def sha256Bytes (msg : List ℕ) : ℕ :=
  let padded := padMsg msg
  let blocks := chunk64 (padded.length + 1) padded
  (blocks.foldl processBlock
    [1779033703, 3144134277, 1013904242, 2773480762, 1359893119, 2600822924,
     528734635, 1541459225]).foldl (fun acc x => acc * 4294967296 + x) 0

/-- Minimal big-endian byte representation with fuel. -/
def natBytesFuel : ℕ → ℕ → List ℕ
  | 0, _ => []
  | fuel + 1, n => if n = 0 then [] else natBytesFuel fuel (n / 256) ++ [n % 256]

/-- The byte sequence big.Int Bytes produces: minimal big-endian form,
empty for zero. -/
def natBytes (n : ℕ) : List ℕ := natBytesFuel (n + 1) n

/-- The concrete Fiat-Shamir challenge of the source: SHA-256 over the
concatenated Bytes representations of the hashed values, read back as a
big-endian integer, exactly as the Go verifiers and provers compute e. -/
def hGo (xs : List ℕ) : ℕ := sha256Bytes (xs.map natBytes).flatten

/-- Known-answer test pinning the embedded SHA-256 to the standard digest
of the three-byte message abc. -/
theorem sha256Bytes_abc :
    sha256Bytes [97, 98, 99] =
      84342368487090800366523834928142263660104883695016514377462985829716817089965 := by
  decide

/-- Claim C8, amended: none of the three verifiers performs a range check
on proof components; each verdict depends on the checked components only
through their residues modulo n^(s+1): the encryption and multiplication
verifiers are unchanged when z is shifted out of range by n^(s+1), and the
decryption-share verifier is unchanged when V and Vi are so shifted, so
out-of-range proofs whose reductions satisfy the recomputed equations are
accepted rather than rejected. -/
theorem claim_C8_amended (H : List ℕ → ℕ) (pk : PubKey) :
    (∀ (c b w z : ℕ),
      verifyEncZK H pk c ⟨b, w, z + pk.nToSPlusOne⟩ =
        verifyEncZK H pk c ⟨b, w, z⟩) ∧
    (∀ (d ca cA a b w y z : ℕ),
      verifyMulZK H pk d ca ⟨cA, a, b, w, y, z + pk.nToSPlusOne⟩ =
        verifyMulZK H pk d ca ⟨cA, a, b, w, y, z⟩) ∧
    (∀ (c : ℕ) (ds : DecryptionShare) (vv vi z e : ℕ),
      verifyDecShareZK H pk c ds ⟨vv + pk.nToSPlusOne, vi + pk.nToSPlusOne, z, e⟩ =
        verifyDecShareZK H pk c ds ⟨vv, vi, z, e⟩) := by
  refine ⟨?_, ?_, ?_⟩
  · intro c b w z
    simp only [verifyEncZK, powModNat_base_shift]
  · intro d ca cA a b w y z
    simp only [verifyMulZK, powModNat_base_shift]
  · intro c ds vv vi z e
    simp only [verifyDecShareZK, powModNat_base_shift, powModInt_base_shift]

/-- Witness for the amended claim C8 at concrete proof components. -/
theorem claim_C8_amended_witness :
    verifyEncZK hZero pkTiny 2 ⟨1, 0, 4 + pkTiny.nToSPlusOne⟩ =
      verifyEncZK hZero pkTiny 2 ⟨1, 0, 4⟩ :=
  (claim_C8_amended hZero pkTiny).1 2 1 0 4

set_option maxRecDepth 100000 in
/-- Claim C8, counterexample: with the challenge computed by the embedded
SHA-256 over the Bytes serialization, exactly as in the source, the
encryption verifier accepts the honest proof for message 2 and randomness 2
on the tiny key after its component Z is shifted to Z + 9, a value outside
the required range below n^(s+1) = 9: no range check rejects it. -/
theorem claim_C8_counterexample :
    verifyEncZK hGo pkTiny 2
      ⟨(encryptProofGo hGo pkTiny 2 2 2 1 2).B,
       (encryptProofGo hGo pkTiny 2 2 2 1 2).W,
       (encryptProofGo hGo pkTiny 2 2 2 1 2).Z + pkTiny.nToSPlusOne⟩ = true ∧
    pkTiny.nToSPlusOne ≤
      (encryptProofGo hGo pkTiny 2 2 2 1 2).Z + pkTiny.nToSPlusOne := by
  constructor
  · decide
  · decide

end Tcpaillier
